import Mathlib

/-!
Verification of the safe recursive archive extractor
(`safe_recursive_extract.py`) against its specification.

Absolute, already-resolved filesystem paths are modelled as lists of
segments: `["tmp", "out"]` stands for `/tmp/out`.  On a symlink-free
POSIX tree `Path.resolve()` is lexical normalisation: `.` segments
vanish, `..` pops the last segment (and stays at the root when there is
nothing to pop), which is what `resolveUnder` computes when a relative
member name is joined onto an already-resolved destination directory.
-/

namespace SafeExtract

/-- Split a raw character list on `/` into chunks (empty chunks kept),
accumulating the current chunk in reverse. -/
def splitSeg : List Char → List Char → List (List Char)
  | [], cur => [cur.reverse]
  | c :: rest, cur =>
    if c = '/' then cur.reverse :: splitSeg rest [] else splitSeg rest (c :: cur)

/-- Path segments of a member name, as `PurePosixPath` produces them:
split on `/`, dropping empty chunks and `.` chunks. -/
def segmentsOf (s : String) : List String :=
  ((splitSeg s.data []).map (fun l => String.mk l)).filter
    (fun seg => (seg != "") && (seg != "."))

/-- First-character test, `member_name.startswith(c)` for one character. -/
def startsWithChar (s : String) (c : Char) : Bool :=
  match s.data with
  | [] => false
  | d :: _ => d == c

/-- Lexical resolution of relative segments against a resolved base:
`..` pops a segment (the root stays the root), anything else is appended. -/
def resolveUnder (base : List String) (segs : List String) : List String :=
  segs.foldl (fun acc seg => if seg = ".." then acc.dropLast else acc ++ [seg]) base

/-- `Path.parents` of an absolute path: every proper ancestor, down to the
root `[]`. -/
def path_parents (p : List String) : List (List String) :=
  (List.range p.length).map (fun k => p.take k)

/-- `safe_member_path` from `safe_recursive_extract.py`: reject absolute
member names (leading `/` or `\`) outright, resolve the member name under
`dest_dir`, and accept only when the result equals `dest_dir` or has
`dest_dir` among its ancestors. -/
def safe_member_path (dest_dir : List String) (member_name : String) :
    Except String (List String) :=
  if startsWithChar member_name '/' || startsWithChar member_name '\\' then
    .error ("absolute member path: " ++ member_name)
  else
    let out_path := resolveUnder dest_dir (segmentsOf member_name)
    if dest_dir = out_path ∨ dest_dir ∈ path_parents out_path then
      .ok out_path
    else
      .error ("path traversal outside dest: " ++ member_name)

lemma mem_path_parents_iff (dest out : List String) :
    dest ∈ path_parents out ↔ ∃ k, k < out.length ∧ dest = out.take k := by
  simp only [path_parents, List.mem_map, List.mem_range]
  constructor
  · rintro ⟨k, hk, rfl⟩
    exact ⟨k, hk, rfl⟩
  · rintro ⟨k, hk, rfl⟩
    exact ⟨k, hk, rfl⟩

lemma contains_iff_descendant (dest out : List String) :
    (dest = out ∨ dest ∈ path_parents out) ↔ ∃ rest, out = dest ++ rest := by
  constructor
  · rintro (rfl | hmem)
    · exact ⟨[], by simp⟩
    · rcases (mem_path_parents_iff dest out).mp hmem with ⟨k, hk, rfl⟩
      exact ⟨out.drop k, (List.take_append_drop k out).symm⟩
  · rintro ⟨rest, rfl⟩
    rcases rest with _ | ⟨r, rs⟩
    · left; simp
    · right
      rw [mem_path_parents_iff]
      refine ⟨dest.length, ?_, ?_⟩
      · simp
      · rw [List.take_left]

/-- C1: every member path accepted by `safe_member_path` equals the
resolved destination directory or is a descendant of it: no accepted
member path lies outside the destination. -/
theorem c1_accepted_member_path_within_dest (dest : List String) (m : String)
    (p : List String) (h : safe_member_path dest m = .ok p) :
    ∃ rest, p = dest ++ rest := by
  unfold safe_member_path at h
  split at h
  · exact absurd h (by simp)
  · dsimp only at h
    split at h
    next hc =>
      rw [Except.ok.injEq] at h
      subst h
      exact (contains_iff_descendant dest _).mp hc
    next => exact absurd h (by simp)

/-- C1 witness: a concrete accepted member resolves to a descendant of
the destination. -/
theorem c1_witness : ∃ rest, ["tmp", "out", "sub", "f.txt"] = ["tmp", "out"] ++ rest :=
  c1_accepted_member_path_within_dest ["tmp", "out"] "sub/f.txt"
    ["tmp", "out", "sub", "f.txt"] rfl

/-- C2 counterexample: the member name `a/../b` contains a `..` segment,
yet `safe_member_path` accepts it, because it resolves back inside the
destination directory. -/
theorem c2_counterexample :
    ".." ∈ segmentsOf "a/../b" ∧
      safe_member_path ["tmp", "out"] "a/../b" = .ok ["tmp", "out", "b"] := by
  exact ⟨by decide, rfl⟩

/-- C2 (amended): `safe_member_path` fails exactly on the absolute member
names (leading `/` or `\`) and on those whose fully resolved path escapes
the destination directory; a `..` segment whose resolution stays inside the
destination is accepted. -/
theorem c2_amended_rejection_characterisation (dest : List String) (m : String) :
    (safe_member_path dest m).toOption = none ↔
      (startsWithChar m '/' = true ∨ startsWithChar m '\\' = true ∨
        ¬ ∃ rest, resolveUnder dest (segmentsOf m) = dest ++ rest) := by
  unfold safe_member_path
  by_cases habs : (startsWithChar m '/' || startsWithChar m '\\') = true
  · simp only [habs, if_true]
    rcases Bool.or_eq_true_iff.mp habs with h | h
    · simp [Except.toOption, h]
    · simp [Except.toOption, h]
  · rw [Bool.or_eq_true_iff] at habs
    push_neg at habs
    simp only [Bool.not_eq_true] at habs
    simp only [habs.1, habs.2, Bool.or_self, if_false]
    by_cases hc : dest = resolveUnder dest (segmentsOf m) ∨
        dest ∈ path_parents (resolveUnder dest (segmentsOf m))
    · simp only [hc, if_true]
      have hd := (contains_iff_descendant dest _).mp hc
      simp [Except.toOption, habs.1, habs.2, hd]
    · simp only [hc, if_false]
      have hd : ¬ ∃ rest, resolveUnder dest (segmentsOf m) = dest ++ rest := by
        intro hx
        exact hc ((contains_iff_descendant dest _).mpr hx)
      simp [Except.toOption, habs.1, habs.2, hd]

/-- Member types a `TarInfo` distinguishes (`isreg`, `isdir`, `issym`,
`islnk`, `ischr`, `isblk`, `isfifo`, `issock`; `other` covers any further
type flag). -/
inductive MemberType
  | reg | dir | sym | lnk | chrdev | blkdev | fifo | sock | other
deriving DecidableEq

/-- A tar member: its in-archive name, its type, and for regular files
the byte stream `tf.extractfile(m)` yields (`none` when the tar marks a
file but cannot provide data). -/
structure TarMember where
  name : String
  mtype : MemberType
  data : Option (List Nat)

/-- The skip test of the extraction loop:
`m.issym() or m.islnk() or m.ischr() or m.isblk() or m.isfifo() or m.issock()`. -/
def isSpecial : MemberType → Bool
  | .sym | .lnk | .chrdev | .blkdev | .fifo | .sock => true
  | .reg | .dir | .other => false

/-- Filesystem effects of an extraction, as the script performs them:
recursive directory creation (`mkdir(parents=True, exist_ok=True)`) and
streaming a byte string into a file. -/
inductive FsAction
  | mkdirTree (p : List String)
  | writeFile (p : List String) (data : List Nat)
deriving DecidableEq

/-- The pre-validation loop of `extract_tar_safely`: run
`safe_member_path` on every member name, failing on the first rejection. -/
def validateMembers (dest : List String) : List TarMember → Except String Unit
  | [] => .ok ()
  | m :: rest =>
    match safe_member_path dest m.name with
    | .error e => .error ("Rejecting: " ++ e)
    | .ok _ => validateMembers dest rest

/-- The extraction loop of `extract_tar_safely`, in archive order:
special members are skipped; directories are created; non-regular
remaining types are skipped; for a regular file the parent directory is
created and then, if the stream is readable, the bytes are written.
Returns the actions performed and, were `safe_member_path` to fail here,
the propagated error together with the actions already performed. -/
def extractLoop (dest : List String) : List TarMember → List FsAction × Option String
  | [] => ([], none)
  | m :: rest =>
    if isSpecial m.mtype then extractLoop dest rest
    else
      match safe_member_path dest m.name with
      | .error e => ([], some e)
      | .ok out =>
        if m.mtype = .dir then
          (FsAction.mkdirTree out :: (extractLoop dest rest).1, (extractLoop dest rest).2)
        else if m.mtype ≠ .reg then
          extractLoop dest rest
        else
          match m.data with
          | none =>
            (FsAction.mkdirTree out.dropLast :: (extractLoop dest rest).1,
              (extractLoop dest rest).2)
          | some bytes =>
            (FsAction.mkdirTree out.dropLast :: FsAction.writeFile out bytes ::
              (extractLoop dest rest).1, (extractLoop dest rest).2)

/-- `extract_tar_safely`: create the destination directory, pre-validate
every member name, and only then run the extraction loop.  The result is
the list of filesystem actions performed and the error, if any. -/
def extract_tar_safely (dest : List String) (members : List TarMember) :
    List FsAction × Option String :=
  match validateMembers dest members with
  | .error e => ([FsAction.mkdirTree dest], some e)
  | .ok _ =>
    (FsAction.mkdirTree dest :: (extractLoop dest members).1, (extractLoop dest members).2)

lemma validateMembers_error_of_mem (dest : List String) (members : List TarMember)
    (m : TarMember) (hm : m ∈ members)
    (hv : (safe_member_path dest m.name).toOption = none) :
    ∃ e, validateMembers dest members = .error e := by
  induction members with
  | nil => cases hm
  | cons hd tl ih =>
    rcases List.mem_cons.mp hm with rfl | htl
    · unfold validateMembers
      cases hsp : safe_member_path dest m.name with
      | error e => exact ⟨"Rejecting: " ++ e, by simp [hsp]⟩
      | ok v => rw [hsp] at hv; simp [Except.toOption] at hv
    · unfold validateMembers
      cases hsp : safe_member_path dest hd.name with
      | error e => exact ⟨"Rejecting: " ++ e, by simp⟩
      | ok v => simpa using ih htl

/-- C3: if any member of the archive fails `safe_member_path` validation,
`extract_tar_safely` aborts with an error before the extraction loop runs,
and the only filesystem action is the creation of the destination
directory itself: no member file or directory is written. -/
theorem c3_failed_validation_aborts_with_no_member_writes
    (dest : List String) (members : List TarMember) (m : TarMember)
    (hm : m ∈ members)
    (hv : (safe_member_path dest m.name).toOption = none) :
    (extract_tar_safely dest members).2.isSome = true ∧
      (extract_tar_safely dest members).1 = [FsAction.mkdirTree dest] := by
  rcases validateMembers_error_of_mem dest members m hm hv with ⟨e, he⟩
  unfold extract_tar_safely
  rw [he]
  exact ⟨rfl, rfl⟩

/-- C3 witness: a concrete archive holding a traversing member is
rejected with no member written. -/
theorem c3_witness :
    (extract_tar_safely ["tmp", "out"]
        [⟨"ok.txt", .reg, some [104, 105]⟩, ⟨"../../etc/passwd", .reg, some [0]⟩]).2.isSome = true ∧
      (extract_tar_safely ["tmp", "out"]
        [⟨"ok.txt", .reg, some [104, 105]⟩, ⟨"../../etc/passwd", .reg, some [0]⟩]).1 =
        [FsAction.mkdirTree ["tmp", "out"]] :=
  c3_failed_validation_aborts_with_no_member_writes ["tmp", "out"]
    [⟨"ok.txt", .reg, some [104, 105]⟩, ⟨"../../etc/passwd", .reg, some [0]⟩]
    ⟨"../../etc/passwd", .reg, some [0]⟩ (by simp) rfl

/-- C4 counterexample: a symlink member whose name traverses outside the
destination causes the whole archive's extraction to fail during
pre-validation, so special members can cause the extraction to fail,
contrary to the claim. -/
theorem c4_counterexample :
    (extract_tar_safely ["tmp", "out"] [⟨"../x", .sym, none⟩]).2.isSome = true := by
  exact rfl

lemma validateMembers_ok_filter (dest : List String) (p : TarMember → Bool)
    (members : List TarMember)
    (hv : validateMembers dest members = .ok ()) :
    validateMembers dest (members.filter p) = .ok () := by
  induction members with
  | nil => simp [validateMembers]
  | cons hd tl ih =>
    unfold validateMembers at hv
    cases hsp : safe_member_path dest hd.name with
    | error e => rw [hsp] at hv; simp at hv
    | ok v =>
      rw [hsp] at hv
      by_cases hp : p hd
      · rw [List.filter_cons_of_pos hp]
        unfold validateMembers
        rw [hsp]
        exact ih hv
      · rw [List.filter_cons_of_neg hp]
        exact ih hv

lemma extractLoop_filter_special (dest : List String) (members : List TarMember) :
    extractLoop dest members =
      extractLoop dest (members.filter (fun m => !isSpecial m.mtype)) := by
  induction members with
  | nil => rfl
  | cons hd tl ih =>
    by_cases hs : isSpecial hd.mtype
    · rw [List.filter_cons_of_neg (by simp [hs])]
      conv_lhs => rw [extractLoop]
      rw [if_pos hs]
      exact ih
    · rw [List.filter_cons_of_pos (by simp [hs])]
      conv_lhs => rw [extractLoop]
      conv_rhs => rw [extractLoop]
      simp only [if_neg hs]
      cases safe_member_path dest hd.name with
      | error e => rfl
      | ok out =>
        dsimp only
        rw [ih]

/-- C4 (amended): in an archive all of whose member names pass
`safe_member_path` validation, the symlink, hardlink, device, fifo and
socket members contribute nothing: extraction behaves exactly as if they
were absent, so nothing is materialized for them and they cause no
failure.  (A special member with a traversing name, by contrast, makes
pre-validation reject the whole archive — see the counterexample.) -/
theorem c4_amended_special_members_contribute_nothing
    (dest : List String) (members : List TarMember)
    (hv : validateMembers dest members = .ok ()) :
    extract_tar_safely dest members =
      extract_tar_safely dest (members.filter (fun m => !isSpecial m.mtype)) := by
  unfold extract_tar_safely
  rw [hv, validateMembers_ok_filter dest _ members hv,
    extractLoop_filter_special dest members]

/-- C4 witness: extraction of a concrete archive holding a symlink and a
device node equals extraction of the same archive with them removed. -/
theorem c4_witness :
    extract_tar_safely ["tmp", "out"]
        [⟨"a.txt", .reg, some [104]⟩, ⟨"link", .sym, none⟩,
          ⟨"dev", .chrdev, none⟩, ⟨"d", .dir, none⟩] =
      extract_tar_safely ["tmp", "out"]
        (([⟨"a.txt", .reg, some [104]⟩, ⟨"link", .sym, none⟩,
          ⟨"dev", .chrdev, none⟩, ⟨"d", .dir, none⟩] : List TarMember).filter
          (fun m => !isSpecial m.mtype)) :=
  c4_amended_special_members_contribute_nothing ["tmp", "out"]
    [⟨"a.txt", .reg, some [104]⟩, ⟨"link", .sym, none⟩,
      ⟨"dev", .chrdev, none⟩, ⟨"d", .dir, none⟩] rfl

/-- Lowercase one ASCII character, as `str.lower()` does on ASCII input. -/
def lcChar (c : Char) : Char :=
  if 'A' ≤ c ∧ c ≤ 'Z' then Char.ofNat (c.toNat + 32) else c

/-- `str.lower()` on the characters of a string. -/
def strLower (s : String) : String :=
  String.mk (s.data.map lcChar)

/-- `str.endswith(suffix)` as a suffix test on the character lists. -/
def strEndsWith (s suffix : String) : Bool :=
  suffix.data.isSuffixOf s.data

/-- `Path(p).name`: the last `/`-separated component of the path string. -/
def nameOf (p : String) : String :=
  String.mk ((splitSeg p.data []).getLastD [])

/-- `is_tarish` from the script: the lowercased file name ends in `.tar`,
`.tgz` or `.tar.gz`. -/
def is_tarish (p : String) : Bool :=
  let n := strLower (nameOf p)
  strEndsWith n ".tar" || strEndsWith n ".tgz" || strEndsWith n ".tar.gz"

/-- `is_plain_gz` from the script: the lowercased file name ends in `.gz`
but not in `.tar.gz`. -/
def is_plain_gz (p : String) : Bool :=
  let n := strLower (nameOf p)
  strEndsWith n ".gz" && !(strEndsWith n ".tar.gz")

/-- The candidate filter of a discovery pass: the lowercased file name
ends in `.tar`, `.tgz`, `.tar.gz` or `.gz`. -/
def archiveSuffix (p : String) : Bool :=
  let n := strLower (nameOf p)
  strEndsWith n ".tar" || strEndsWith n ".tgz" ||
    strEndsWith n ".tar.gz" || strEndsWith n ".gz"

/-- The filesystem environment `main` runs against, abstracting the
on-disk effects of archive processing: `yields f` is the list of resolved
file paths that extracting (or gunzipping) archive `f` places under the
output directory, and `fails f` says whether processing `f` raises an
exception (traversal rejection, I/O or format error). -/
structure World where
  yields : String → List String
  fails : String → Bool

/-- The mutable state of a run of `main`: the resolved paths of the files
currently under the output directory, the completion set `done` (in
insertion order), and the number of extraction/decompression attempts
performed so far. -/
structure MState where
  files : List String
  done : List String
  count : Nat

/-- One candidate step of a discovery pass: skip paths already in `done`;
otherwise a tar-ish path is extracted and a plain-gz path gunzipped (a
caught failure yields nothing), the path is marked complete either way,
and `new_work` is set. -/
def processCandidate (w : World) (st : MState) (nw : Bool) (f : String) :
    MState × Bool :=
  if f ∈ st.done then (st, nw)
  else if is_tarish f then
    ({ files := st.files ++ (if w.fails f then [] else w.yields f),
       done := st.done ++ [f],
       count := st.count + 1 }, true)
  else if is_plain_gz f then
    ({ files := st.files ++ (if w.fails f then [] else w.yields f),
       done := st.done ++ [f],
       count := st.count + 1 }, true)
  else (st, nw)

/-- One discovery pass: snapshot the candidates (files under the output
directory with a recognized archive suffix), then process each in order.
Returns the new state and the `new_work` flag. -/
def runPass (w : World) (st : MState) : MState × Bool :=
  (st.files.filter archiveSuffix).foldl
    (fun acc f => processCandidate w acc.1 acc.2 f) (st, false)

/-- The pass loop `for depth in range(1, max_depth + 1)`: run a pass; if
it found no new work, stop early, else continue with one fewer pass
remaining. -/
def runPasses (w : World) : Nat → MState → MState
  | 0, st => st
  | d + 1, st =>
    let p := runPass w st
    if p.2 then runPasses w d p.1 else p.1

/-- The result of a run of `main`: the exit status, the final completion
set, the files under the output directory, and the number of
extraction/decompression attempts. -/
structure MainResult where
  exit : Nat
  done : List String
  files : List String
  count : Nat

/-- `main` from the script, over the abstract filesystem `w`.  `inp` is
the resolved input path, `inpIsFile` the result of `inp.is_file()`,
`done0` the completion set loaded from the state file, and `files0` the
files already under the output directory.  A missing input exits 1;
an input not yet in the completion set is classified: tar-ish and plain-gz
inputs are processed (a failure exits 2 before the input is marked), any
other suffix exits 1 (`UnsupportedInput`); then the discovery passes run
and the run exits 0. -/
def mainModel (w : World) (inp : String) (inpIsFile : Bool)
    (done0 files0 : List String) (maxDepth : Nat) : MainResult :=
  if inpIsFile then
    if inp ∈ done0 then
      let st := runPasses w maxDepth ⟨files0, done0, 0⟩
      ⟨0, st.done, st.files, st.count⟩
    else if is_tarish inp then
      if w.fails inp then ⟨2, done0, files0, 1⟩
      else
        let st := runPasses w maxDepth
          ⟨files0 ++ w.yields inp, done0 ++ [inp], 1⟩
        ⟨0, st.done, st.files, st.count⟩
    else if is_plain_gz inp then
      if w.fails inp then ⟨2, done0, files0, 1⟩
      else
        let st := runPasses w maxDepth
          ⟨files0 ++ w.yields inp, done0 ++ [inp], 1⟩
        ⟨0, st.done, st.files, st.count⟩
    else ⟨1, done0, files0, 0⟩
  else ⟨1, done0, files0, 0⟩

/-- C8: the exit status of `main` is 0 on success, 1 when the input is
missing or not a regular file or its (unprocessed) suffix is unsupported,
and 2 when top-level extraction or decompression fails; the discovery
passes never change the exit status. -/
theorem c8_exit_codes (w : World) (inp : String) (inpIsFile : Bool)
    (done0 files0 : List String) (maxDepth : Nat) :
    (mainModel w inp inpIsFile done0 files0 maxDepth).exit =
      if inpIsFile = false then 1
      else if inp ∈ done0 then 0
      else if is_tarish inp then (if w.fails inp then 2 else 0)
      else if is_plain_gz inp then (if w.fails inp then 2 else 0)
      else 1 := by
  unfold mainModel
  cases inpIsFile with
  | false => simp
  | true =>
    simp only [if_true, Bool.true_eq_false, if_false]
    by_cases h0 : inp ∈ done0
    · simp [h0]
    · simp only [h0, if_false]
      by_cases ht : is_tarish inp
      · by_cases hf : w.fails inp <;> simp [ht, hf]
      · simp only [ht, Bool.false_eq_true, if_false]
        by_cases hg : is_plain_gz inp
        · by_cases hf : w.fails inp <;> simp [hg, hf]
        · simp [hg]

/-- C10: when the resolved input path is already in the loaded completion
set, `main` skips classification and top-level processing entirely — the
result is exactly that of running the discovery passes, with exit 0, no
matter what the input's suffix is. -/
theorem c10_done_input_skips_classification (w : World) (inp : String)
    (done0 files0 : List String) (maxDepth : Nat) (h : inp ∈ done0) :
    (mainModel w inp true done0 files0 maxDepth).exit = 0 ∧
      (mainModel w inp true done0 files0 maxDepth).done =
        (runPasses w maxDepth ⟨files0, done0, 0⟩).done ∧
      (mainModel w inp true done0 files0 maxDepth).files =
        (runPasses w maxDepth ⟨files0, done0, 0⟩).files ∧
      (mainModel w inp true done0 files0 maxDepth).count =
        (runPasses w maxDepth ⟨files0, done0, 0⟩).count := by
  unfold mainModel
  simp [h]

/-- C10 witness: an input file named `data.zip` — an unsupported suffix —
already present in the completion set does not exit 1: the run goes
straight to the passes and exits 0. -/
theorem c10_witness :
    (mainModel ⟨fun _ => [], fun _ => false⟩ "data.zip" true ["data.zip"] [] 8).exit = 0 ∧
      (mainModel ⟨fun _ => [], fun _ => false⟩ "data.zip" true ["data.zip"] [] 8).done =
        (runPasses ⟨fun _ => [], fun _ => false⟩ 8 ⟨[], ["data.zip"], 0⟩).done ∧
      (mainModel ⟨fun _ => [], fun _ => false⟩ "data.zip" true ["data.zip"] [] 8).files =
        (runPasses ⟨fun _ => [], fun _ => false⟩ 8 ⟨[], ["data.zip"], 0⟩).files ∧
      (mainModel ⟨fun _ => [], fun _ => false⟩ "data.zip" true ["data.zip"] [] 8).count =
        (runPasses ⟨fun _ => [], fun _ => false⟩ 8 ⟨[], ["data.zip"], 0⟩).count :=
  c10_done_input_skips_classification ⟨fun _ => [], fun _ => false⟩ "data.zip"
    ["data.zip"] [] 8 (by decide)

lemma archiveSuffix_cases (p : String) (h : archiveSuffix p = true) :
    is_tarish p = true ∨ is_plain_gz p = true := by
  simp only [archiveSuffix] at h
  simp only [is_tarish, is_plain_gz]
  cases h1 : strEndsWith (strLower (nameOf p)) ".tar" <;>
    cases h2 : strEndsWith (strLower (nameOf p)) ".tgz" <;>
      cases h3 : strEndsWith (strLower (nameOf p)) ".tar.gz" <;>
        cases h4 : strEndsWith (strLower (nameOf p)) ".gz" <;>
          simp_all

lemma foldl_skip_all (w : World) (L : List String) :
    ∀ (acc : MState × Bool), (∀ f ∈ L, f ∈ acc.1.done) →
      L.foldl (fun acc f => processCandidate w acc.1 acc.2 f) acc = acc := by
  induction L with
  | nil => intro acc _; rfl
  | cons hd tl ih =>
    intro acc hall
    have hhd : hd ∈ acc.1.done := hall hd (List.mem_cons_self hd tl)
    have hstep : processCandidate w acc.1 acc.2 hd = acc := by
      unfold processCandidate
      rw [if_pos hhd]
    simp only [List.foldl_cons, hstep]
    exact ih acc (fun f hf => hall f (List.mem_cons_of_mem hd hf))

lemma runPass_skip_all (w : World) (st : MState)
    (h : ∀ f ∈ st.files, archiveSuffix f = true → f ∈ st.done) :
    runPass w st = (st, false) := by
  unfold runPass
  exact foldl_skip_all w _ (st, false)
    (fun f hf => h f (List.mem_filter.mp hf).1 (List.mem_filter.mp hf).2)

lemma runPasses_skip_all (w : World) (k : Nat) (st : MState)
    (h : ∀ f ∈ st.files, archiveSuffix f = true → f ∈ st.done) :
    runPasses w k st = st := by
  cases k with
  | zero => rfl
  | succ d =>
    unfold runPasses
    rw [runPass_skip_all w st h]
    rfl

lemma processCandidate_done_mono (w : World) (st : MState) (nw : Bool)
    (g f : String) (h : f ∈ st.done) :
    f ∈ (processCandidate w st nw g).1.done := by
  unfold processCandidate
  split
  · exact h
  · split
    · exact List.mem_append_left _ h
    · split
      · exact List.mem_append_left _ h
      · exact h

lemma foldl_done_mono (w : World) (L : List String) :
    ∀ (acc : MState × Bool) (f : String), f ∈ acc.1.done →
      f ∈ (L.foldl (fun acc f => processCandidate w acc.1 acc.2 f) acc).1.done := by
  induction L with
  | nil => intro acc f h; exact h
  | cons hd tl ih =>
    intro acc f h
    simp only [List.foldl_cons]
    exact ih _ f (processCandidate_done_mono w acc.1 acc.2 hd f h)

lemma mem_done_after_fold (w : World) (L : List String) :
    ∀ (acc : MState × Bool) (f : String), f ∈ L →
      (is_tarish f = true ∨ is_plain_gz f = true) →
      f ∈ (L.foldl (fun acc f => processCandidate w acc.1 acc.2 f) acc).1.done := by
  induction L with
  | nil => intro acc f h; cases h
  | cons hd tl ih =>
    intro acc f hmem hkind
    simp only [List.foldl_cons]
    rcases List.mem_cons.mp hmem with rfl | htl
    · have hdone : f ∈ (processCandidate w acc.1 acc.2 f).1.done := by
        unfold processCandidate
        split
        next h => exact h
        · by_cases ht : is_tarish f
          · rw [if_pos ht]
            exact List.mem_append_right _ (List.mem_singleton.mpr rfl)
          · rcases hkind with ht' | hg
            · exact absurd ht' ht
            · rw [if_neg ht, if_pos hg]
              exact List.mem_append_right _ (List.mem_singleton.mpr rfl)
      exact foldl_done_mono w tl _ f hdone
    · exact ih _ f htl hkind

lemma runPass_marks (w : World) (st : MState) (f : String)
    (hf : f ∈ st.files) (ha : archiveSuffix f = true) :
    f ∈ (runPass w st).1.done := by
  unfold runPass
  exact mem_done_after_fold w _ (st, false) f
    (List.mem_filter.mpr ⟨hf, ha⟩) (archiveSuffix_cases f ha)

/-- A chain of three nested tar archives: extracting `a.tar` reveals
`b.tar`, extracting `b.tar` reveals `c.tar`, and `c.tar` holds plain
data; no extraction fails. -/
def chainWorld3 : World :=
  ⟨fun f => if f = "a.tar" then ["b.tar"] else if f = "b.tar" then ["c.tar"] else [],
    fun _ => false⟩

/-- C6 counterexample: with `max-depth = 1` on a chain of three archives,
the first run stops with `c.tar` discovered but unprocessed; the second
run with identical arguments performs one further extraction and leaves a
strictly larger completion set, so the second run is not a no-op. -/
theorem c6_counterexample :
    (mainModel chainWorld3 "a.tar" true [] [] 1).count = 2 ∧
      (mainModel chainWorld3 "a.tar" true
          (mainModel chainWorld3 "a.tar" true [] [] 1).done
          (mainModel chainWorld3 "a.tar" true [] [] 1).files 1).count = 1 ∧
      (mainModel chainWorld3 "a.tar" true
          (mainModel chainWorld3 "a.tar" true [] [] 1).done
          (mainModel chainWorld3 "a.tar" true [] [] 1).files 1).done ≠
        (mainModel chainWorld3 "a.tar" true [] [] 1).done := by
  refine ⟨by decide, by decide, by decide⟩

/-- C6 (amended): when the first run left a saturated state — the input
marked complete and every archive-suffixed file under the output
directory marked complete, which is exactly how a run that stopped early
("no new archives found") finishes — a second run with identical
arguments changes nothing: identical completion set, identical files,
zero extraction or decompression attempts, exit 0.  (The completion set
only grows and an archive path once in it is never reprocessed; but a
first run cut short by `max-depth` leaves discovered-yet-unprocessed
archives that a second run does process — see the counterexample.) -/
theorem c6_amended_second_run_noop_after_saturation (w : World) (inp : String)
    (done0 files0 : List String) (maxDepth : Nat)
    (hinp : inp ∈ done0)
    (hsat : ∀ f ∈ files0, archiveSuffix f = true → f ∈ done0) :
    (mainModel w inp true done0 files0 maxDepth).exit = 0 ∧
      (mainModel w inp true done0 files0 maxDepth).done = done0 ∧
      (mainModel w inp true done0 files0 maxDepth).files = files0 ∧
      (mainModel w inp true done0 files0 maxDepth).count = 0 := by
  have hrp := runPasses_skip_all w maxDepth ⟨files0, done0, 0⟩ hsat
  unfold mainModel
  simp only [hinp, if_true, hrp]
  exact ⟨trivial, trivial, trivial, trivial⟩

/-- C6 witness: the state a full-depth first run on the three-archive
chain leaves behind (`done = [a.tar, b.tar, c.tar]`,
`files = [b.tar, c.tar]`) is saturated, so the second run is a no-op. -/
theorem c6_witness :
    (mainModel chainWorld3 "a.tar" true ["a.tar", "b.tar", "c.tar"]
        ["b.tar", "c.tar"] 8).exit = 0 ∧
      (mainModel chainWorld3 "a.tar" true ["a.tar", "b.tar", "c.tar"]
        ["b.tar", "c.tar"] 8).done = ["a.tar", "b.tar", "c.tar"] ∧
      (mainModel chainWorld3 "a.tar" true ["a.tar", "b.tar", "c.tar"]
        ["b.tar", "c.tar"] 8).files = ["b.tar", "c.tar"] ∧
      (mainModel chainWorld3 "a.tar" true ["a.tar", "b.tar", "c.tar"]
        ["b.tar", "c.tar"] 8).count = 0 :=
  c6_amended_second_run_noop_after_saturation chainWorld3 "a.tar"
    ["a.tar", "b.tar", "c.tar"] ["b.tar", "c.tar"] 8 (by decide) (by decide)

/-- A world in which every archive's processing raises a caught error. -/
def failWorld : World := ⟨fun _ => [], fun _ => true⟩

/-- C7 counterexample: when the top-level input's extraction (`a.tar`) or
decompression (`b.gz`) fails, `main` exits 2 without adding the input to
the completion set — a top-level failure is logged but the archive is not
marked complete, contrary to the claim. -/
theorem c7_counterexample :
    (mainModel failWorld "a.tar" true [] [] 8).exit = 2 ∧
      "a.tar" ∉ (mainModel failWorld "a.tar" true [] [] 8).done ∧
      (mainModel failWorld "b.gz" true [] [] 8).exit = 2 ∧
      "b.gz" ∉ (mainModel failWorld "b.gz" true [] [] 8).done := by
  refine ⟨by decide, by decide, by decide, by decide⟩

/-- C7 (amended): every archive-suffixed file a discovery pass finds is in
the completion set after the pass, whether or not its processing failed;
the top-level input, by contrast, is marked only on success: a failing
top-level extraction or decompression — tar-ish or plain-gzip input
alike — exits 2 and leaves the completion set unchanged. -/
theorem c7_amended_pass_failures_marked_top_level_not (w : World) (st : MState)
    (f inp : String) (done0 files0 : List String) (k : Nat)
    (hf : f ∈ st.files) (ha : archiveSuffix f = true)
    (hkind : is_tarish inp = true ∨ is_plain_gz inp = true)
    (hfail : w.fails inp = true) (hnd : inp ∉ done0) :
    f ∈ (runPass w st).1.done ∧
      (mainModel w inp true done0 files0 k).done = done0 ∧
      (mainModel w inp true done0 files0 k).exit = 2 := by
  refine ⟨runPass_marks w st f hf ha, ?_, ?_⟩ <;>
    · unfold mainModel
      by_cases ht : is_tarish inp = true
      · simp [hnd, ht, hfail]
      · rcases hkind with h | h
        · exact absurd h ht
        · simp [hnd, ht, h, hfail]

/-- C7 witness: in a world where all processing fails, a failing `x.tar`
and a failing `y.gz` found during a pass are still marked complete, while
the failing top-level `a.tar` (extraction) and `b.gz` (decompression)
each exit 2 unmarked. -/
theorem c7_witness :
    ("x.tar" ∈ (runPass failWorld ⟨["x.tar"], [], 0⟩).1.done ∧
      (mainModel failWorld "a.tar" true [] [] 8).done = [] ∧
      (mainModel failWorld "a.tar" true [] [] 8).exit = 2) ∧
    ("y.gz" ∈ (runPass failWorld ⟨["y.gz"], [], 0⟩).1.done ∧
      (mainModel failWorld "b.gz" true [] [] 8).done = [] ∧
      (mainModel failWorld "b.gz" true [] [] 8).exit = 2) :=
  ⟨c7_amended_pass_failures_marked_top_level_not failWorld ⟨["x.tar"], [], 0⟩
      "x.tar" "a.tar" [] [] 8 (by decide) (by decide) (Or.inl (by decide))
      (by decide) (by decide),
    c7_amended_pass_failures_marked_top_level_not failWorld ⟨["y.gz"], [], 0⟩
      "y.gz" "b.gz" [] [] 8 (by decide) (by decide) (Or.inr (by decide))
      (by decide) (by decide)⟩

lemma archiveSuffix_of_tarish (p : String) (h : is_tarish p = true) :
    archiveSuffix p = true := by
  simp only [is_tarish, Bool.or_eq_true] at h
  simp only [archiveSuffix, Bool.or_eq_true]
  tauto

/-- The run state after `s` of the `N` archives of a nested chain
`a 0 ⊃ a 1 ⊃ … ⊃ a (N-1)` have been processed: archives
`a 1 … a (min s (N-1))` have appeared under the output directory,
`a 0 … a (s-1)` are marked complete, and `s` extraction attempts have
happened. -/
def chainState (a : Nat → String) (N s : Nat) : MState :=
  ⟨(List.range' 1 (min s (N - 1))).map a, (List.range s).map a, s⟩

lemma map_range'_snoc (a : Nat → String) (t : Nat) :
    (List.range' 1 (t + 1)).map a = (List.range' 1 t).map a ++ [a (t + 1)] := by
  rw [List.range'_concat, List.map_append]
  congr 2
  simp [Nat.add_comm]

lemma map_range_snoc (a : Nat → String) (t : Nat) :
    (List.range (t + 1)).map a = (List.range t).map a ++ [a t] := by
  rw [List.range_succ, List.map_append, List.map_cons, List.map_nil]

lemma chainState_step (a : Nat → String) (N t : Nat) (h : t + 1 < N) :
    (MState.mk
        ((chainState a N (t + 1)).files ++
          (if t + 1 + 1 < N then [a (t + 1 + 1)] else []))
        ((chainState a N (t + 1)).done ++ [a (t + 1)])
        ((chainState a N (t + 1)).count + 1)) =
      chainState a N (t + 1 + 1) := by
  unfold chainState
  dsimp only
  have hmin : min (t + 1) (N - 1) = t + 1 := by omega
  by_cases h2 : t + 1 + 1 < N
  · have hmin2 : min (t + 1 + 1) (N - 1) = t + 1 + 1 := by omega
    rw [if_pos h2, hmin, hmin2]
    congr 1
    · rw [map_range'_snoc a (t + 1)]
    · rw [map_range_snoc a (t + 1)]
  · have hmin2 : min (t + 1 + 1) (N - 1) = t + 1 := by omega
    rw [if_neg h2, hmin, hmin2, List.append_nil]
    congr 1
    rw [map_range_snoc a (t + 1)]

lemma chain_pass_step (w : World) (a : Nat → String) (N : Nat)
    (hinj : ∀ i, i < N → ∀ j, j < N → a i = a j → i = j)
    (htar : ∀ i, i < N → is_tarish (a i) = true)
    (hyld : ∀ i, i < N → w.yields (a i) = if i + 1 < N then [a (i + 1)] else [])
    (hfail : ∀ i, i < N → w.fails (a i) = false)
    (s : Nat) (h1 : 1 ≤ s) (hsN : s < N) :
    runPass w (chainState a N s) = (chainState a N (s + 1), true) := by
  obtain ⟨t, rfl⟩ : ∃ t, s = t + 1 := ⟨s - 1, by omega⟩
  have hmin : min (t + 1) (N - 1) = t + 1 := by omega
  have hfilter :
      ((chainState a N (t + 1)).files).filter archiveSuffix =
        (List.range' 1 (t + 1)).map a := by
    unfold chainState
    dsimp only
    rw [hmin]
    apply List.filter_eq_self.mpr
    intro f hf
    rcases List.mem_map.mp hf with ⟨i, hi, rfl⟩
    have hiN : i < N := by
      have := List.mem_range'_1.mp hi
      omega
    exact archiveSuffix_of_tarish _ (htar i hiN)
  have hconcat : List.range' 1 (t + 1) = List.range' 1 t ++ [t + 1] := by
    rw [List.range'_concat]
    congr 1
    simp [Nat.add_comm]
  unfold runPass
  rw [hfilter, hconcat, List.map_append, List.foldl_append]
  have hdone : ∀ f ∈ (List.range' 1 t).map a, f ∈ (chainState a N (t + 1)).done := by
    intro f hf
    rcases List.mem_map.mp hf with ⟨i, hi, rfl⟩
    have hit : i < t + 1 := by
      have := List.mem_range'_1.mp hi
      omega
    exact List.mem_map.mpr ⟨i, List.mem_range.mpr hit, rfl⟩
  rw [foldl_skip_all w _ (chainState a N (t + 1), false) hdone]
  have hnot : a (t + 1) ∉ (chainState a N (t + 1)).done := by
    intro hmem
    rcases List.mem_map.mp hmem with ⟨j, hj, heq⟩
    have hjt : j < t + 1 := List.mem_range.mp hj
    have := hinj j (by omega) (t + 1) hsN heq
    omega
  simp only [List.map_cons, List.map_nil, List.foldl_cons, List.foldl_nil]
  unfold processCandidate
  rw [if_neg hnot, if_pos (htar (t + 1) hsN), hfail (t + 1) hsN,
    hyld (t + 1) hsN, if_neg Bool.false_ne_true]
  rw [chainState_step a N t hsN]

lemma chain_pass_fix (w : World) (a : Nat → String) (N : Nat) (hN : 1 ≤ N) :
    runPass w (chainState a N N) = (chainState a N N, false) := by
  apply runPass_skip_all
  intro f hf _
  rcases List.mem_map.mp hf with ⟨i, hi, rfl⟩
  have hiN : i < N := by
    have := List.mem_range'_1.mp hi
    omega
  exact List.mem_map.mpr ⟨i, List.mem_range.mpr hiN, rfl⟩

lemma chain_passes (w : World) (a : Nat → String) (N : Nat)
    (hinj : ∀ i, i < N → ∀ j, j < N → a i = a j → i = j)
    (htar : ∀ i, i < N → is_tarish (a i) = true)
    (hyld : ∀ i, i < N → w.yields (a i) = if i + 1 < N then [a (i + 1)] else [])
    (hfail : ∀ i, i < N → w.fails (a i) = false) :
    ∀ k s, 1 ≤ s → s ≤ N →
      runPasses w k (chainState a N s) = chainState a N (min (s + k) N) := by
  intro k
  induction k with
  | zero =>
    intro s h1 hsN
    rw [Nat.add_zero, Nat.min_eq_left hsN]
    rfl
  | succ d ih =>
    intro s h1 hsN
    by_cases hlt : s < N
    · unfold runPasses
      rw [chain_pass_step w a N hinj htar hyld hfail s h1 hlt]
      dsimp only
      rw [if_pos rfl, ih (s + 1) (by omega) (by omega)]
      have : min (s + 1 + d) N = min (s + (d + 1)) N := by omega
      rw [this]
    · have hs : s = N := by omega
      rw [hs]
      unfold runPasses
      rw [chain_pass_fix w a N (by omega)]
      dsimp only
      rw [if_neg (by simp), Nat.min_eq_right (by omega)]

/-- C5 counterexample: a chain of `N = 2` nested archives
(`a.tar` containing `b.tar`) run with `max-depth = 1 < 2` extracts both
archives, not `k = 1`: the top-level extraction does not consume a pass,
so `k` passes extract up to `k + 1` archives of the chain. -/
def chainWorld2 : World :=
  ⟨fun f => if f = "a.tar" then ["b.tar"] else [], fun _ => false⟩

/-- C5 counterexample theorem: with `max-depth = 1` on the two-archive
chain, two extractions happen, not one. -/
theorem c5_counterexample :
    (mainModel chainWorld2 "a.tar" true [] [] 1).count = 2 ∧
      ¬ (mainModel chainWorld2 "a.tar" true [] [] 1).count = 1 := by
  refine ⟨by decide, by decide⟩

/-- C5 (amended): for a chain of `N ≥ 1` nested archives, the first
given to `main` as input, a run with `max-depth = k` extracts exactly
`min (k + 1) N` archives — the top-level extraction plus at most one per
pass — and terminates with exit 0.  In particular `max-depth = k < N`
extracts `k + 1` archives (not `k`), and all `N` are extracted as soon as
`max-depth ≥ N - 1`, in particular whenever `max-depth ≥ N`. -/
theorem c5_amended_chain_extraction_count (w : World) (a : Nat → String)
    (N k : Nat) (hN : 1 ≤ N)
    (hinj : ∀ i, i < N → ∀ j, j < N → a i = a j → i = j)
    (htar : ∀ i, i < N → is_tarish (a i) = true)
    (hyld : ∀ i, i < N → w.yields (a i) = if i + 1 < N then [a (i + 1)] else [])
    (hfail : ∀ i, i < N → w.fails (a i) = false) :
    (mainModel w (a 0) true [] [] k).count = min (k + 1) N ∧
      (mainModel w (a 0) true [] [] k).exit = 0 := by
  have h0N : 0 < N := hN
  have hinit : (⟨[] ++ w.yields (a 0), [] ++ [a 0], 1⟩ : MState) = chainState a N 1 := by
    unfold chainState
    rw [hyld 0 h0N]
    by_cases h1 : 0 + 1 < N
    · have hm : min 1 (N - 1) = 1 := by omega
      rw [if_pos h1, hm]
      rfl
    · have hm : min 1 (N - 1) = 0 := by omega
      rw [if_neg h1, hm]
      rfl
  have hmain : mainModel w (a 0) true [] [] k =
      ⟨0, (runPasses w k (chainState a N 1)).done,
        (runPasses w k (chainState a N 1)).files,
        (runPasses w k (chainState a N 1)).count⟩ := by
    unfold mainModel
    rw [if_pos rfl, if_neg (List.not_mem_nil (a 0)), if_pos (htar 0 h0N),
      hfail 0 h0N]
    simp only [Bool.false_eq_true, if_false]
    rw [hinit]
  rw [hmain]
  dsimp only
  rw [chain_passes w a N hinj htar hyld hfail k 1 (le_refl 1) hN]
  unfold chainState
  dsimp only
  constructor
  · omega
  · rfl

/-- C5 witness: the three-archive chain with `max-depth = 8 ≥ N` extracts
all three archives and exits 0. -/
theorem c5_witness :
    (mainModel chainWorld3 "a.tar" true [] [] 8).count = min (8 + 1) 3 ∧
      (mainModel chainWorld3 "a.tar" true [] [] 8).exit = 0 :=
  c5_amended_chain_extraction_count chainWorld3
    (fun i => if i = 0 then "a.tar" else if i = 1 then "b.tar" else "c.tar")
    3 8 (by omega) (by decide) (by decide) (by decide) (by decide)

/-- The while loop of `gunzip_to_file`:
`while Path(f"{out}.{i}").exists(): i += 1`, returning the first free
numeric suffix, with explicit fuel bounding the search (the real loop
terminates because only finitely many paths exist). -/
def findFreeSuffix (ex : String → Bool) (out : String) : Nat → Nat → Option Nat
  | 0, _ => none
  | fuel + 1, i =>
    if ex (out ++ "." ++ Nat.repr i) then findFreeSuffix ex out fuel (i + 1)
    else some i

/-- Strip a trailing `.gz` — `base = base[:-3]` guarded by the lowercase
`endswith(".gz")` test. -/
def stripGzSuffix (base : String) : String :=
  if strEndsWith (strLower base) ".gz" then
    String.mk (base.data.take (base.data.length - 3))
  else base

/-- `gunzip_to_file`: decompress the gzip file named `gzName` (whose
decompressed bytes are `gzContent`) into `destDir`.  The target is
`destDir/<name without .gz>`; when that path already exists, the first
numeric suffix `.<i>` (from `i = 1`) naming a non-existent path is used
instead.  `ex` is the filesystem existence test and `fuel` bounds the
suffix search.  Returns the path written and the bytes written to it. -/
def gunzip_to_file (ex : String → Bool) (gzName : String) (gzContent : List Nat)
    (destDir : String) (fuel : Nat) : Option (String × List Nat) :=
  let base := stripGzSuffix gzName
  let out := destDir ++ "/" ++ base
  if ex out then
    match findFreeSuffix ex out fuel 1 with
    | none => none
    | some i => some (out ++ "." ++ Nat.repr i, gzContent)
  else some (out, gzContent)

lemma findFreeSuffix_spec (ex : String → Bool) (out : String) :
    ∀ fuel i j, findFreeSuffix ex out fuel i = some j →
      ex (out ++ "." ++ Nat.repr j) = false ∧ i ≤ j := by
  intro fuel
  induction fuel with
  | zero => intro i j h; exact absurd h (by simp [findFreeSuffix])
  | succ f ih =>
    intro i j h
    unfold findFreeSuffix at h
    by_cases hex : ex (out ++ "." ++ Nat.repr i) = true
    · rw [if_pos hex] at h
      rcases ih (i + 1) j h with ⟨h1, h2⟩
      exact ⟨h1, by omega⟩
    · rw [if_neg hex] at h
      rw [Option.some.injEq] at h
      subst h
      exact ⟨Bool.not_eq_true _ |>.mp hex, Nat.le_refl i⟩

/-- C9: whatever path `gunzip_to_file` reports having written carries the
decompressed bytes, did not exist beforehand (nothing is overwritten),
and is either `destDir/<source name with .gz stripped>` or, exactly when
that target already existed, a numerically-suffixed variant of it. -/
theorem c9_gunzip_writes_fresh_stripped_path (ex : String → Bool)
    (gzName : String) (gzContent : List Nat) (destDir : String) (fuel : Nat)
    (p : String) (bytes : List Nat)
    (h : gunzip_to_file ex gzName gzContent destDir fuel = some (p, bytes)) :
    ex p = false ∧ bytes = gzContent ∧
      (p = destDir ++ "/" ++ stripGzSuffix gzName ∨
        ∃ i, 1 ≤ i ∧
          p = destDir ++ "/" ++ stripGzSuffix gzName ++ "." ++ Nat.repr i ∧
          ex (destDir ++ "/" ++ stripGzSuffix gzName) = true) := by
  unfold gunzip_to_file at h
  dsimp only at h
  by_cases hex : ex (destDir ++ "/" ++ stripGzSuffix gzName) = true
  · rw [if_pos hex] at h
    cases hff : findFreeSuffix ex (destDir ++ "/" ++ stripGzSuffix gzName) fuel 1 with
    | none => rw [hff] at h; exact absurd h (by simp)
    | some i =>
      rw [hff] at h
      rw [Option.some.injEq, Prod.mk.injEq] at h
      rcases h with ⟨hp, hb⟩
      subst hp
      subst hb
      rcases findFreeSuffix_spec ex _ fuel 1 i hff with ⟨hfree, hi⟩
      refine ⟨hfree, rfl, Or.inr ⟨i, hi, rfl, hex⟩⟩
  · rw [if_neg hex] at h
    rw [Option.some.injEq, Prod.mk.injEq] at h
    rcases h with ⟨hp, hb⟩
    subst hp
    subst hb
    exact ⟨Bool.not_eq_true _ |>.mp hex, rfl, Or.inl rfl⟩

/-- An existence test under which only `d/x` exists. -/
def exOne : String → Bool := fun s => s == "d/x"

/-- C9 witness: gunzipping `x.gz` into `d` when `d/x` already exists
writes the fresh path `d/x.1`. -/
theorem c9_witness :
    exOne "d/x.1" = false ∧ ([104] : List Nat) = [104] ∧
      ("d/x.1" = "d" ++ "/" ++ stripGzSuffix "x.gz" ∨
        ∃ i, 1 ≤ i ∧
          "d/x.1" = "d" ++ "/" ++ stripGzSuffix "x.gz" ++ "." ++ Nat.repr i ∧
          exOne ("d" ++ "/" ++ stripGzSuffix "x.gz") = true) :=
  c9_gunzip_writes_fresh_stripped_path exOne "x.gz" [104] "d" 2 "d/x.1" [104]
    (by decide)

end SafeExtract
